import Mathlib

/-!
Verification of the training-loop orchestration of train.py
(Attention_is_All_You_Need): token-budgeted batching, the checkpoint
policy, the report cycle, the evaluation pass, statistics merging and
the parameter tally, shallowly embedded in Lean.
-/

set_option linter.unusedVariables false

namespace Train

/-- An Example of the data model: a pair of a source token-id sequence and
a target token-id sequence. -/
structure Example where
  src : List Nat
  trg : List Nat
deriving Repr, DecidableEq, Inhabited

/-- The per-example token cost used throughout: source length plus target
length. -/
def cost (e : Example) : Nat := e.src.length + e.trg.length

/-- train.py, batch_size_func: the running-cost accumulator handed to the
batching collaborator.  The count argument is ignored by the source. -/
def batch_size_func (new : Example) (count : Nat) (sofar : Nat) : Nat :=
  sofar + new.src.length + new.trg.length

/-- Folding batch_size_func over a batch the way the batching loop does,
threading the running element count and the running cost. -/
def accumCostGo : List Example → Nat → Nat → Nat
  | [], _, sofar => sofar
  | e :: rest, count, sofar => accumCostGo rest (count + 1) (batch_size_func e (count + 1) sofar)

/-- The cumulative cost the batching policy accumulates over a batch. -/
def accumCost (es : List Example) : Nat := accumCostGo es 0 0

/-- Modelled from the spec: the token-budget batching loop itself lives in
the external batching collaborator (torchtext pool via batch_size_fn) and
is not part of src/.  Per the spec, the policy appends an example to the
current batch, accumulates its cost through batch_size_func, and only then
checks the bound, closing the batch once the accumulated cost reaches the
budget B, so the single last-appended example may push the sum over B.
Arguments: remaining corpus, current batch (reversed), its accumulated
cost. -/
def makeBatches (B : Nat) : List Example → List Example → Nat → List (List Example)
  | [], cur, _ => if cur.isEmpty then [] else [cur.reverse]
  | e :: rest, cur, sofar =>
    let sofar2 := batch_size_func e (cur.length + 1) sofar
    if B ≤ sofar2 then (e :: cur).reverse :: makeBatches B rest [] 0
    else makeBatches B rest (e :: cur) sofar2

/-- The batches the policy produces from a corpus under token budget B. -/
def batchesOf (B : Nat) (corpus : List Example) : List (List Example) :=
  makeBatches B corpus [] 0

theorem accumCostGo_eq (es : List Example) :
    ∀ count sofar, accumCostGo es count sofar = sofar + (es.map cost).sum := by
  induction es with
  | nil => intro count sofar; simp [accumCostGo]
  | cons e rest ih =>
    intro count sofar
    simp only [accumCostGo, batch_size_func, List.map_cons, List.sum_cons, ih, cost]
    omega

theorem accumCost_eq_sum (es : List Example) : accumCost es = (es.map cost).sum := by
  simpa [accumCost] using accumCostGo_eq es 0 0

theorem makeBatches_bound (B : Nat) (rest : List Example) :
    ∀ cur sofar, sofar = (cur.map cost).sum → sofar < B →
      ∀ b ∈ makeBatches B rest cur sofar,
        b ≠ [] ∧ (b.dropLast.map cost).sum < B := by
  induction rest with
  | nil =>
    intro cur sofar hsum hlt b hb
    by_cases hcur : cur.isEmpty
    · simp [makeBatches, hcur] at hb
    · simp only [makeBatches, hcur, if_neg, Bool.false_eq_true, not_false_iff,
        ite_false, List.mem_singleton] at hb
      subst hb
      refine ⟨by simpa using fun h => hcur (by simp [List.isEmpty_iff, h]), ?_⟩
      calc (cur.reverse.dropLast.map cost).sum
          ≤ (cur.reverse.map cost).sum := by
            refine List.Sublist.sum_le_sum ?_ ?_
            · exact List.Sublist.map cost (List.dropLast_sublist cur.reverse)
            · intro x _; exact Nat.zero_le x
        _ = (cur.map cost).sum := by simp [List.sum_reverse]
        _ < B := hsum ▸ hlt
  | cons e rest ih =>
    intro cur sofar hsum hlt b hb
    simp only [makeBatches] at hb
    by_cases hB : B ≤ batch_size_func e (cur.length + 1) sofar
    · simp only [if_pos hB, List.mem_cons] at hb
      rcases hb with hb | hb
      · subst hb
        constructor
        · simp
        · have hc : (e :: cur).reverse = cur.reverse ++ [e] := by simp
          have hrev : (cur.reverse.map cost).sum = (cur.map cost).sum := by
            rw [List.map_reverse, List.sum_reverse]
          rw [hc, List.dropLast_concat, hrev]
          exact hsum ▸ hlt
      · exact ih [] 0 (by simp) (by
          have := hsum ▸ hlt
          have h0 : (cur.map cost).sum < B := this
          omega) b hb
    · simp only [if_neg hB] at hb
      refine ih (e :: cur) _ ?_ (by omega) b hb
      simp [batch_size_func, cost, hsum]
      omega

/-- train.py lines 180-182: the checkpoint comparison inside the cadence
block.  Given the candidate score and the current best_score, it returns
whether torch.save ran (the snapshot was persisted) and the new
best_score. -/
def maybe_checkpoint (score best_score : ℚ) : Bool × ℚ :=
  if score ≥ best_score then (true, score) else (false, best_score)

/-- train.py line 174 with Python operator precedence: the expression
total_steps + 1 % 1000 == 0 parses as total_steps + (1 % 1000) == 0,
the guard of the periodic-evaluation block. -/
def cadenceGuard (total_steps : Nat) : Bool :=
  total_steps + 1 % 1000 == 0

/-- The state the epoch/step loop of main threads across steps: best_score
(line 99), total_steps (line 139), and counters of how many times
CalculateBleu was invoked and torch.save executed inside the loop. -/
structure LoopState where
  best_score : ℚ
  total_steps : Nat
  evals : Nat
  saves : Nat
deriving Repr, DecidableEq

/-- One training step of main (lines 151-182), restricted to the state
relevant to the cadence block: total_steps is incremented (line 152), and
if the line-174 guard fires and BLEU evaluation is not disabled, the model
is evaluated (oracle_score stands for the score CalculateBleu would
return) and the checkpoint comparison of lines 180-182 runs. -/
def train_step (no_bleu : Bool) (oracle_score : ℚ) (s : LoopState) : LoopState :=
  let s1 : LoopState := { s with total_steps := s.total_steps + 1 }
  if cadenceGuard s1.total_steps then
    if no_bleu = false then
      let s2 : LoopState := { s1 with evals := s1.evals + 1 }
      let r := maybe_checkpoint oracle_score s2.best_score
      if r.1 then { s2 with best_score := r.2, saves := s2.saves + 1 } else s2
    else s1
  else s1

/-- Running the step loop over a run's worth of steps, each with the score
its evaluation would produce. -/
def runLoop (no_bleu : Bool) (scores : List ℚ) (s : LoopState) : LoopState :=
  scores.foldl (fun st sc => train_step no_bleu sc st) s

theorem cadenceGuard_false (t : Nat) : cadenceGuard t = false := by
  simp [cadenceGuard]

theorem train_step_eq (nb : Bool) (sc : ℚ) (s : LoopState) :
    train_step nb sc s = { s with total_steps := s.total_steps + 1 } := by
  simp [train_step, cadenceGuard_false]

theorem runLoop_eq (nb : Bool) (scores : List ℚ) :
    ∀ s : LoopState, runLoop nb scores s =
      { s with total_steps := s.total_steps + scores.length } := by
  induction scores with
  | nil => intro s; simp [runLoop]
  | cons sc rest ih =>
    intro s
    show runLoop nb rest (train_step nb sc s) = _
    rw [train_step_eq, ih]
    simp
    omega

/-- Modelled from the spec: the Statistics aggregate of utils (not part of
src/): the record keeps loss_sum, n_correct, n_src_words, n_words and
n_batches; losses are modelled as rationals. -/
structure Statistics where
  loss_sum : ℚ
  n_correct : Nat
  n_src_words : Nat
  n_words : Nat
  n_batches : Nat
deriving Repr, DecidableEq

/-- A freshly constructed Statistics, all fields zero. -/
def Statistics.init : Statistics := ⟨0, 0, 0, 0, 0⟩

/-- Modelled from the spec: the Statistics merge (utils.Statistics.update,
not part of src/) accumulates the scalar signals of a batch update into the
aggregate by summing each field. -/
def Statistics.update (s t : Statistics) : Statistics :=
  ⟨s.loss_sum + t.loss_sum, s.n_correct + t.n_correct,
   s.n_src_words + t.n_src_words, s.n_words + t.n_words,
   s.n_batches + t.n_batches⟩

/-- Accuracy readout of a Statistics: n_correct / n_words (spec 4.4). -/
def Statistics.accuracy (s : Statistics) : ℚ := (s.n_correct : ℚ) / (s.n_words : ℚ)

/-- The per-word average loss loss_sum / n_words (spec 4.4); perplexity is
its exponential, so any perplexity agreement reduces to agreement of this
ratio. -/
def Statistics.perWordLoss (s : Statistics) : ℚ := s.loss_sum / (s.n_words : ℚ)

/-- Merging a window's worth of per-batch Statistics updates, in order,
into a fresh aggregate. -/
def aggregate (l : List Statistics) : Statistics :=
  l.foldl Statistics.update Statistics.init

/-- train.py, report_func (lines 63-67): when the batch index modulo
report_every equals -1 % report_every (Python modulo on a positive divisor,
hence report_every - 1), the progress line is emitted — modelled by the
Bool flag — and a fresh Statistics replaces the report-window one;
otherwise the incoming Statistics is returned unchanged. -/
def report_func (batch : Nat) (report_stats : Statistics) (report_every : Nat) :
    Bool × Statistics :=
  if (batch : Int) % (report_every : Int) = (-1 : Int) % (report_every : Int) then
    (true, Statistics.init)
  else (false, report_stats)

/-- train.py lines 169-172: one report cycle of the step loop: the step's
Statistics update stat is merged into both the report-window and the epoch
Statistics, then report_func is applied to the report-window one only. -/
def report_cycle (batch report_every : Nat) (stat report_stats train_stats : Statistics) :
    (Bool × Statistics) × Statistics :=
  (report_func batch (report_stats.update stat) report_every,
   train_stats.update stat)

theorem int_neg_one_emod (re : Nat) (h : 0 < re) :
    (-1 : Int) % (re : Int) = (re : Int) - 1 := by
  have h1 : (-1 : Int) = ((re : Int) - 1) + (re : Int) * (-1) := by ring
  rw [h1, Int.add_mul_emod_self_left]
  exact Int.emod_eq_of_lt (by omega) (by omega)

theorem report_func_phase (batch report_every : Nat) (h : 0 < report_every)
    (report_stats : Statistics) :
    report_func batch report_stats report_every =
      if batch % report_every = report_every - 1 then (true, Statistics.init)
      else (false, report_stats) := by
  have hcast : ((batch % report_every : Nat) : Int) = (batch : Int) % (report_every : Int) :=
    Int.ofNat_emod batch report_every
  by_cases hb : batch % report_every = report_every - 1
  · rw [if_pos hb]
    rw [report_func, if_pos]
    rw [int_neg_one_emod report_every h, ← hcast, hb]
    omega
  · rw [if_neg hb]
    rw [report_func, if_neg]
    rw [int_neg_one_emod report_every h, ← hcast]
    omega

/-- train.py line 84: CalculateBleu.call iterates i over
range(0, len(test_data), batch) and slices test_data from i to i + batch:
consecutive fixed-size chunks, the last possibly shorter.  Faithful for
batch at least 1 (Python range rejects a zero step). -/
def chunks (b : Nat) : List α → List (List α)
  | [] => []
  | x :: xs => (x :: xs.take (b - 1)) :: chunks b (xs.drop (b - 1))
termination_by l => l.length
decreasing_by simp [List.length_drop]; omega

/-- train.py lines 80-95, CalculateBleu.call, hypothesis collection: for
each chunk the sources are separated out, the model translates them, and
the results extend the hypotheses list.  The generation procedure
(net.Transformer.translate, not part of src/) is modelled from the spec as
producing one Hypothesis per source Example, via the per-source function
g. -/
def calculateBleu_hyps (g : List Nat → List Nat) (b : Nat) (corpus : List Example) :
    List (List Nat) :=
  (chunks b corpus).foldl (fun hyps batch => hyps ++ batch.map (fun e => g e.src)) []

/-- The generation mode chosen by CalculateBleu.call. -/
inductive GenMode where
  | beam (width : Nat)
  | greedy
deriving Repr, DecidableEq

/-- train.py lines 87-90 as a mode choice: beam search when beam_size is
strictly greater than 1, greedy otherwise. -/
def genMode (beam_size : Nat) : GenMode :=
  if beam_size > 1 then GenMode.beam beam_size else GenMode.greedy

/-- train.py lines 87-90: the branch on beam_size; both branches invoke
the same model generation interface (model.translate, here the abstract
translate argument) with the sources and max_length, differing only in
the beam argument. -/
def calculateBleuTranslate
    (translate : GenMode → Nat → List (List Nat) → List (List Nat))
    (beam_size max_length : Nat) (sources : List (List Nat)) : List (List Nat) :=
  if beam_size > 1 then translate (GenMode.beam beam_size) max_length sources
  else translate GenMode.greedy max_length sources

/-- train.py, save_output (lines 27-32): the sequence of write calls, one
per Hypothesis, in order; each write is the sentence's token ids looked up
in the vocabulary, joined by single spaces, followed by a newline. -/
def save_output (hypotheses : List (List Nat)) (vocab : Nat → String) : List String :=
  hypotheses.foldl
    (fun acc sent => acc ++ [String.intercalate " " (sent.map vocab) ++ "\n"]) []

/-- The orchestration-level events of main (lines 140-209). -/
inductive MainEvent where
  | trainStep
  | checkpointSave
  | epochReport
  | writeHyp (file : Nat)
deriving Repr, DecidableEq

/-- Whether an event writes a hypothesis file. -/
def isWriteHyp : MainEvent → Bool
  | MainEvent.writeHyp _ => true
  | _ => false

/-- The events of one training step at the given total_steps value: the
step itself, then a checkpoint save exactly when the line-174 guard
fires. -/
def stepEvents (t : Nat) : List MainEvent :=
  MainEvent.trainStep :: (if cadenceGuard t then [MainEvent.checkpointSave] else [])

/-- The events of one epoch (lines 151-199): the steps, then the
end-of-epoch validation report. -/
def epochEvents (stepsDone steps : Nat) : List MainEvent :=
  ((List.range steps).flatMap fun i => stepEvents (stepsDone + i + 1))
    ++ [MainEvent.epochReport]

/-- The event trace of main (lines 140-209): the epoch loop, then — only
after all epochs — the two hypothesis files are written, validation (file
0, line 205) first and test (file 1, line 209) second, once each. -/
def mainEvents (epochs steps : Nat) : List MainEvent :=
  ((List.range epochs).flatMap fun e => epochEvents (e * steps) steps)
    ++ [MainEvent.writeHyp 0, MainEvent.writeHyp 1]

/-- Python membership test, pattern in s, on strings: hasPre checks a
prefix match, hasSub scans every suffix. -/
def hasPre : List Char → List Char → Bool
  | [], _ => true
  | _ :: _, [] => false
  | p :: ps, c :: cs => p == c && hasPre ps cs

/-- Substring occurrence check over character lists. -/
def hasSub (pat : List Char) : List Char → Bool
  | [] => hasPre pat []
  | c :: cs => hasPre pat (c :: cs) || hasSub pat cs

/-- Python: pat in s. -/
def pyIn (pat s : String) : Bool := hasSub pat.data s.data

/-- Python truthiness of a string literal: non-empty strings are truthy. -/
def pyTruthyStr (s : String) : Bool := !s.isEmpty

/-- train.py line 43 with Python semantics: the condition of the elif,
the expression in quotes decoder or generator in name, parses as a
disjunction whose left operand is the truthiness of the literal string
decoder. -/
def decoderElifCond (name : String) : Bool :=
  pyTruthyStr "decoder" || pyIn "generator" name

/-- train.py, tally_parameters (lines 35-46), bucket accumulation: each
named parameter (name, element count) adds its elements to the encoder
bucket when encoder occurs in the name, else to the decoder bucket when
the line-43 condition holds.  Returns (enc, dec). -/
def tally_parameters (params : List (String × Nat)) : Nat × Nat :=
  params.foldl
    (fun acc p =>
      if pyIn "encoder" p.1 then (acc.1 + p.2, acc.2)
      else if decoderElifCond p.1 then (acc.1, acc.2 + p.2)
      else acc)
    (0, 0)

theorem chunks_flatten_aux (b : Nat) (hb : 0 < b) {α : Type} :
    ∀ (n : Nat) (l : List α), l.length ≤ n → (chunks b l).flatten = l := by
  intro n
  induction n with
  | zero =>
    intro l h
    have hl : l = [] := List.eq_nil_of_length_eq_zero (Nat.le_zero.mp h)
    simp [hl, chunks]
  | succ n ih =>
    intro l h
    cases l with
    | nil => simp [chunks]
    | cons x xs =>
      rw [chunks, List.flatten_cons, ih (xs.drop (b - 1))
        (by rw [List.length_drop]; simp only [List.length_cons] at h; omega)]
      simp [List.take_append_drop]

theorem chunks_flatten (b : Nat) (hb : 0 < b) {α : Type} (l : List α) :
    (chunks b l).flatten = l :=
  chunks_flatten_aux b hb l.length l le_rfl

theorem chunks_shape_aux (b : Nat) (hb : 0 < b) {α : Type} :
    ∀ (n : Nat) (l : List α), l.length ≤ n →
      ∀ c ∈ chunks b l, c ≠ [] ∧ c.length ≤ b := by
  intro n
  induction n with
  | zero =>
    intro l h c hc
    have hl : l = [] := List.eq_nil_of_length_eq_zero (Nat.le_zero.mp h)
    rw [hl] at hc; simp [chunks] at hc
  | succ n ih =>
    intro l h c hc
    cases l with
    | nil => simp [chunks] at hc
    | cons x xs =>
      rw [chunks, List.mem_cons] at hc
      rcases hc with hc | hc
      · subst hc
        refine ⟨by simp, ?_⟩
        have := List.length_take_le (b - 1) xs
        simp only [List.length_cons]
        omega
      · exact ih (xs.drop (b - 1))
          (by rw [List.length_drop]; simp only [List.length_cons] at h; omega) c hc

theorem foldl_extend_map (f : Example → List Nat) :
    ∀ (L : List (List Example)) (acc : List (List Nat)),
      L.foldl (fun hyps batch => hyps ++ batch.map f) acc = acc ++ L.flatten.map f := by
  intro L
  induction L with
  | nil => intro acc; simp
  | cons batch L ih => intro acc; simp [List.foldl_cons, ih]

theorem calculateBleu_hyps_eq (g : List Nat → List Nat) (b : Nat) (hb : 0 < b)
    (corpus : List Example) :
    calculateBleu_hyps g b corpus = corpus.map fun e => g e.src := by
  rw [calculateBleu_hyps, foldl_extend_map, chunks_flatten b hb corpus]
  simp

theorem foldl_write_map {α β : Type} (f : α → β) :
    ∀ (l : List α) (acc : List β),
      l.foldl (fun a x => a ++ [f x]) acc = acc ++ l.map f := by
  intro l
  induction l with
  | nil => intro acc; simp
  | cons x xs ih => intro acc; simp [List.foldl_cons, ih]

theorem save_output_eq (h : List (List Nat)) (vocab : Nat → String) :
    save_output h vocab =
      h.map fun sent => String.intercalate " " (sent.map vocab) ++ "\n" :=
  by simpa [save_output] using foldl_write_map _ h []

theorem stepEvents_eq (t : Nat) : stepEvents t = [MainEvent.trainStep] := by
  simp [stepEvents, cadenceGuard_false]

theorem epochEvents_no_write (stepsDone steps : Nat) :
    ∀ ev ∈ epochEvents stepsDone steps, isWriteHyp ev = false := by
  intro ev hev
  simp only [epochEvents, stepEvents_eq, List.mem_append, List.mem_flatMap,
    List.mem_range, List.mem_singleton] at hev
  rcases hev with ⟨i, _, hev⟩ | hev
  · subst hev; rfl
  · subst hev; rfl

theorem mainEvents_split (epochs steps : Nat) :
    mainEvents epochs steps =
      (((List.range epochs).flatMap fun e => epochEvents (e * steps) steps)
        ++ [MainEvent.writeHyp 0]) ++ [MainEvent.writeHyp 1] := by
  simp [mainEvents]

theorem epochPart_no_write (epochs steps : Nat) :
    ∀ ev ∈ (List.range epochs).flatMap (fun e => epochEvents (e * steps) steps),
      isWriteHyp ev = false := by
  intro ev hev
  rw [List.mem_flatMap] at hev
  rcases hev with ⟨e, _, hev⟩
  exact epochEvents_no_write (e * steps) steps ev hev

theorem Statistics.update_assoc (a b c : Statistics) :
    (a.update b).update c = a.update (b.update c) := by
  cases a; cases b; cases c
  simp only [Statistics.update, Statistics.mk.injEq]
  refine ⟨add_assoc _ _ _, ?_, ?_, ?_, ?_⟩ <;> omega

theorem Statistics.update_comm (a b : Statistics) : a.update b = b.update a := by
  cases a; cases b
  simp only [Statistics.update, Statistics.mk.injEq]
  refine ⟨add_comm _ _, ?_, ?_, ?_, ?_⟩ <;> omega

instance : RightCommutative Statistics.update :=
  ⟨fun b a₁ a₂ => by
    rw [Statistics.update_assoc, Statistics.update_assoc,
      Statistics.update_comm a₁ a₂]⟩

theorem aggregate_perm {l₁ l₂ : List Statistics} (p : l₁.Perm l₂) :
    aggregate l₁ = aggregate l₂ :=
  List.Perm.foldl_eq p Statistics.init

theorem decoderElifCond_true (name : String) : decoderElifCond name = true := by
  rw [decoderElifCond]
  have h : pyTruthyStr "decoder" = true := by decide
  rw [h, Bool.true_or]

theorem tally_parameters_go (params : List (String × Nat)) :
    ∀ enc dec : Nat,
      (params.foldl
        (fun acc p =>
          if pyIn "encoder" p.1 then (acc.1 + p.2, acc.2)
          else if decoderElifCond p.1 then (acc.1, acc.2 + p.2)
          else acc)
        (enc, dec)).1 +
      (params.foldl
        (fun acc p =>
          if pyIn "encoder" p.1 then (acc.1 + p.2, acc.2)
          else if decoderElifCond p.1 then (acc.1, acc.2 + p.2)
          else acc)
        (enc, dec)).2 = enc + dec + (params.map Prod.snd).sum := by
  induction params with
  | nil => intro enc dec; simp
  | cons p ps ih =>
    intro enc dec
    simp only [List.foldl_cons, List.map_cons, List.sum_cons]
    by_cases hp : pyIn "encoder" p.1
    · rw [if_pos hp, ih]; omega
    · rw [if_neg hp, if_pos (decoderElifCond_true p.1), ih]; omega

/-- Claim C1 (code-bug evidence): at total_steps = 1000 the every-1000-steps
cadence is due (1000 % 1000 = 0), yet the guard of train.py line 174 — which
parses as total_steps + (1 % 1000) == 0 — is false there, and false at
total_steps = 999 as well, so the evaluation-and-checkpoint block is
skipped at steps where the claimed cadence is due. -/
theorem C1_cadence_due_but_block_skipped :
    1000 % 1000 = 0 ∧ cadenceGuard 1000 = false ∧ cadenceGuard 999 = false := by
  decide

/-- Claim C2: the checkpoint decision persists the snapshot if and only if
the candidate score is at least best_score (so an exact tie persists,
favoring the most recent model); immediately after persisting, best_score
equals the candidate score; and on a strictly lower candidate nothing is
persisted and best_score is unchanged. -/
theorem C2_checkpoint_policy (s b : ℚ) :
    ((maybe_checkpoint s b).1 = true ↔ b ≤ s)
    ∧ ((maybe_checkpoint s b).1 = true → (maybe_checkpoint s b).2 = s)
    ∧ (s < b → (maybe_checkpoint s b).1 = false ∧ (maybe_checkpoint s b).2 = b) := by
  unfold maybe_checkpoint
  by_cases h : b ≤ s
  · rw [if_pos h]
    exact ⟨by simp [h], fun _ => rfl, fun hlt => absurd h (not_le.mpr hlt)⟩
  · rw [if_neg h]
    exact ⟨by simp [h], by simp, fun _ => ⟨rfl, rfl⟩⟩

/-- Witness for C2 at the spec's own scenarios: a tie (candidate 0 against
best 0) persists and best becomes 0; a strictly lower candidate (12 against
12.4) does not persist and best stays 12.4. -/
theorem C2_checkpoint_policy_witness :
    (maybe_checkpoint 0 0).1 = true ∧ (maybe_checkpoint 0 0).2 = 0
    ∧ (maybe_checkpoint 12 (124 / 10)).1 = false
    ∧ (maybe_checkpoint 12 (124 / 10)).2 = 124 / 10 := by
  have h1 := C2_checkpoint_policy 0 0
  have h2 := C2_checkpoint_policy 12 (124 / 10)
  have hlt : (12 : ℚ) < 124 / 10 := by norm_num
  exact ⟨h1.1.mpr le_rfl, h1.2.1 (h1.1.mpr le_rfl), (h2.2.2 hlt).1, (h2.2.2 hlt).2⟩

/-- Claim C3: the cost the batching policy accumulates over a batch through
batch_size_func is exactly the sum of (source length + target length) over
its examples, and under any token budget B > 0 every produced batch is
nonempty, its cost with the single last-appended example dropped is under
B, and so its full cost exceeds B by less than that one example's cost. -/
theorem C3_batch_budget (B : Nat) (hB : 0 < B) (corpus : List Example) :
    (∀ es : List Example, accumCost es = (es.map cost).sum)
    ∧ ∀ b ∈ batchesOf B corpus,
        b ≠ [] ∧ (b.dropLast.map cost).sum < B
        ∧ (b.map cost).sum < B + cost (b.getLastD default) := by
  refine ⟨accumCost_eq_sum, fun b hb => ?_⟩
  have h := makeBatches_bound B corpus [] 0 (by simp) hB b hb
  refine ⟨h.1, h.2, ?_⟩
  have hsplit : b = b.dropLast ++ [b.getLast h.1] :=
    (List.dropLast_append_getLast h.1).symm
  conv_lhs => rw [hsplit]
  rw [List.map_append, List.sum_append]
  have hd : b.getLastD default = b.getLast h.1 := by
    conv_lhs => rw [hsplit]
    simp
  rw [hd]
  have := h.2
  simp only [List.map_cons, List.map_nil, List.sum_cons, List.sum_nil]
  omega

/-- Witness for C3 at the spec's own scenario: budget B = 8 and the corpus
of two examples with costs 5 and 3 yield a single batch holding both, and
the accumulated cost of that batch is 8. -/
theorem C3_batch_budget_witness :
    accumCost [⟨[2, 5, 3], [7, 5]⟩, ⟨[9], [9, 9]⟩] = 8
    ∧ batchesOf 8 [⟨[2, 5, 3], [7, 5]⟩, ⟨[9], [9, 9]⟩]
        = [[⟨[2, 5, 3], [7, 5]⟩, ⟨[9], [9, 9]⟩]]
    ∧ ∀ b ∈ batchesOf 8 [⟨[2, 5, 3], [7, 5]⟩, ⟨[9], [9, 9]⟩],
        b ≠ [] ∧ (b.dropLast.map cost).sum < 8 := by
  have h := C3_batch_budget 8 (by decide) [⟨[2, 5, 3], [7, 5]⟩, ⟨[9], [9, 9]⟩]
  exact ⟨by decide, by decide, fun b hb => ⟨(h.2 b hb).1, (h.2 b hb).2.1⟩⟩

/-- Claim C4: the guard of train.py line 174 evaluates as
total_steps + (1 % 1000) == 0, i.e. total_steps + 1 == 0, which holds for
no step, so over every run of the step loop starting from best_score = 0 no
CalculateBleu evaluation and no torch.save ever happens inside the epoch
loop and best_score = 0 is an invariant, while total_steps just counts the
steps. -/
theorem C4_best_score_invariant :
    (∀ t : Nat, cadenceGuard t = (t + 1 == 0) ∧ cadenceGuard t = false)
    ∧ ∀ (nb : Bool) (scores : List ℚ),
        runLoop nb scores ⟨0, 0, 0, 0⟩ =
          { best_score := 0, total_steps := scores.length, evals := 0, saves := 0 } := by
  refine ⟨fun t => ⟨rfl, cadenceGuard_false t⟩, fun nb scores => ?_⟩
  rw [runLoop_eq]
  simp

/-- Claim C5: for every per-source generation function g, batch size b > 0
and corpus, the evaluation pass partitions the corpus into consecutive
chunks — they concatenate back to the corpus in order, each nonempty with
at most b examples — and returns exactly one hypothesis per source example
in corpus order: the hypothesis list is the map of g over the sources, so
its length is the corpus length and hypothesis i belongs to example i. -/
theorem C5_eval_order (g : List Nat → List Nat) (b : Nat) (hb : 0 < b)
    (corpus : List Example) :
    calculateBleu_hyps g b corpus = corpus.map (fun e => g e.src)
    ∧ (calculateBleu_hyps g b corpus).length = corpus.length
    ∧ (chunks b corpus).flatten = corpus
    ∧ ∀ c ∈ chunks b corpus, c ≠ [] ∧ c.length ≤ b := by
  refine ⟨calculateBleu_hyps_eq g b hb corpus, ?_, chunks_flatten b hb corpus,
    chunks_shape_aux b hb corpus.length corpus le_rfl⟩
  rw [calculateBleu_hyps_eq g b hb corpus, List.length_map]

/-- Witness for C5: with batch size 2 on a three-example corpus, the
hypotheses come out one per example, in corpus order. -/
theorem C5_eval_order_witness :
    calculateBleu_hyps (fun l => 0 :: l) 2
        [⟨[1], [2]⟩, ⟨[3], [4, 5]⟩, ⟨[6], []⟩]
      = [[0, 1], [0, 3], [0, 6]] := by
  have h := C5_eval_order (fun l => 0 :: l) 2 (by decide)
    [⟨[1], [2]⟩, ⟨[3], [4, 5]⟩, ⟨[6], []⟩]
  rw [h.1]
  rfl

/-- Claim C6: with a positive report interval, a report cycle always merges
the step's update into the epoch Statistics, which the reset never touches;
exactly when the step index modulo the interval equals the fixed phase
report_every - 1, the progress line is emitted and the report-window
Statistics is replaced by a fresh one; at every other step no line is
emitted and the (merged) report-window Statistics is returned unchanged. -/
theorem C6_report_cycle (batch report_every : Nat) (h : 0 < report_every)
    (stat report_stats train_stats : Statistics) :
    (report_cycle batch report_every stat report_stats train_stats).2
        = train_stats.update stat
    ∧ (batch % report_every = report_every - 1 →
        (report_cycle batch report_every stat report_stats train_stats).1
          = (true, Statistics.init))
    ∧ (batch % report_every ≠ report_every - 1 →
        (report_cycle batch report_every stat report_stats train_stats).1
          = (false, report_stats.update stat)) := by
  refine ⟨rfl, ?_, ?_⟩ <;> intro hb <;>
    simp [report_cycle, report_func_phase batch report_every h, hb]

/-- Witness for C6 with report interval 4: at step 3 (the phase) the line
is emitted and the window is reset while the epoch aggregate receives the
update; at step 2 the merged window is returned unchanged. -/
theorem C6_report_cycle_witness :
    (report_cycle 3 4 ⟨1, 2, 3, 4, 1⟩ ⟨0, 0, 0, 0, 0⟩ ⟨5, 5, 5, 5, 5⟩).2
        = Statistics.update ⟨5, 5, 5, 5, 5⟩ ⟨1, 2, 3, 4, 1⟩
    ∧ (report_cycle 3 4 ⟨1, 2, 3, 4, 1⟩ ⟨0, 0, 0, 0, 0⟩ ⟨5, 5, 5, 5, 5⟩).1
        = (true, Statistics.init)
    ∧ (report_cycle 2 4 ⟨1, 2, 3, 4, 1⟩ ⟨1, 1, 1, 1, 1⟩ ⟨5, 5, 5, 5, 5⟩).1
        = (false, Statistics.update ⟨1, 1, 1, 1, 1⟩ ⟨1, 2, 3, 4, 1⟩) := by
  have h3 := C6_report_cycle 3 4 (by decide) ⟨1, 2, 3, 4, 1⟩ ⟨0, 0, 0, 0, 0⟩ ⟨5, 5, 5, 5, 5⟩
  have h2 := C6_report_cycle 2 4 (by decide) ⟨1, 2, 3, 4, 1⟩ ⟨1, 1, 1, 1, 1⟩ ⟨5, 5, 5, 5, 5⟩
  exact ⟨h3.1, h3.2.1 (by decide), h2.2.2 (by decide)⟩

/-- Claim C7: the output writer performs exactly one write per hypothesis,
in order — the written lines are the hypotheses' token ids looked up in the
vocabulary, space-joined and newline-terminated — and in the trace of main
the two hypothesis files (validation, file 0, then test, file 1) are each
written exactly once, strictly after all epoch-loop events. -/
theorem C7_output_writer (h : List (List Nat)) (vocab : Nat → String)
    (epochs steps : Nat) :
    save_output h vocab
        = h.map (fun sent => String.intercalate " " (sent.map vocab) ++ "\n")
    ∧ (save_output h vocab).length = h.length
    ∧ (mainEvents epochs steps).filter isWriteHyp
        = [MainEvent.writeHyp 0, MainEvent.writeHyp 1]
    ∧ ((mainEvents epochs steps).dropLast.dropLast).all
        (fun ev => !isWriteHyp ev) = true := by
  refine ⟨save_output_eq h vocab, ?_, ?_, ?_⟩
  · rw [save_output_eq]; simp
  · have hnil : ((List.range epochs).flatMap fun e =>
        epochEvents (e * steps) steps).filter isWriteHyp = [] := by
      rw [List.filter_eq_nil_iff]
      intro a ha
      simp [epochPart_no_write epochs steps a ha]
    rw [mainEvents, List.filter_append, hnil]
    rfl
  · rw [mainEvents_split, List.dropLast_concat, List.dropLast_concat,
      List.all_eq_true]
    intro ev hev
    simp [epochPart_no_write epochs steps ev hev]

/-- Claim C8: generation uses beam search if and only if the configured
beam width is strictly greater than 1, and greedy decoding otherwise; both
branches of the evaluation pass call the very same model generation
interface with the same sources and maximum output length, differing only
in the mode passed. -/
theorem C8_generation_mode (k : Nat) :
    (genMode k = GenMode.beam k ↔ 1 < k)
    ∧ (genMode k = GenMode.greedy ↔ k ≤ 1)
    ∧ ∀ (translate : GenMode → Nat → List (List Nat) → List (List Nat))
        (max_length : Nat) (sources : List (List Nat)),
        calculateBleuTranslate translate k max_length sources
          = translate (genMode k) max_length sources := by
  refine ⟨?_, ?_, fun translate ml sources => ?_⟩ <;>
    · simp only [genMode, calculateBleuTranslate]
      by_cases hk : 1 < k
      · simp [hk] <;> omega
      · simp [hk] <;> omega

/-- Claim C9: the Statistics merge is associative and commutative, hence
the aggregate of a non-empty accumulation window — and with it the derived
accuracy and per-word average loss, and therefore perplexity, which is the
exponential of the latter — is invariant under reordering the constituent
per-batch updates. -/
theorem C9_merge_order_invariant :
    (∀ a b c : Statistics, (a.update b).update c = a.update (b.update c))
    ∧ (∀ a b : Statistics, a.update b = b.update a)
    ∧ ∀ l₁ l₂ : List Statistics, l₁ ≠ [] → l₁.Perm l₂ →
        aggregate l₁ = aggregate l₂
        ∧ (aggregate l₁).accuracy = (aggregate l₂).accuracy
        ∧ (aggregate l₁).perWordLoss = (aggregate l₂).perWordLoss := by
  refine ⟨Statistics.update_assoc, Statistics.update_comm, fun l₁ l₂ hne p => ?_⟩
  have h := aggregate_perm p
  exact ⟨h, by rw [h], by rw [h]⟩

/-- Witness for C9: swapping two concrete batch updates leaves the
aggregate and its accuracy unchanged. -/
theorem C9_merge_order_invariant_witness :
    aggregate [⟨1, 2, 3, 4, 1⟩, ⟨2, 3, 4, 5, 1⟩]
        = aggregate [⟨2, 3, 4, 5, 1⟩, ⟨1, 2, 3, 4, 1⟩]
    ∧ (aggregate [⟨1, 2, 3, 4, 1⟩, ⟨2, 3, 4, 5, 1⟩]).accuracy
        = (aggregate [⟨2, 3, 4, 5, 1⟩, ⟨1, 2, 3, 4, 1⟩]).accuracy := by
  have h := C9_merge_order_invariant.2.2
    [⟨1, 2, 3, 4, 1⟩, ⟨2, 3, 4, 5, 1⟩] [⟨2, 3, 4, 5, 1⟩, ⟨1, 2, 3, 4, 1⟩]
    (by simp) (List.Perm.swap _ _ _)
  exact ⟨h.1, h.2.1⟩

/-- Claim C10: the elif condition of tally_parameters is true for every
parameter name — the string literal is truthy, so once the encoder check
fails the parameter is counted in the decoder bucket regardless of its
name — and consequently the two buckets together count every named
parameter exactly once: enc + dec equals the total element count. -/
theorem C10_tally_buckets :
    (∀ name : String, decoderElifCond name = true)
    ∧ ∀ params : List (String × Nat),
        (tally_parameters params).1 + (tally_parameters params).2
          = (params.map Prod.snd).sum := by
  refine ⟨decoderElifCond_true, fun params => ?_⟩
  simpa [tally_parameters] using tally_parameters_go params 0 0

end Train
